import Mathlib

/-!
Verification development for the Monte Carlo TSP program (src/tsp.c).

The C program's core data and operations are shallowly embedded below.
Every finite float is a rational number, so float values on which the
program only performs field arithmetic and comparisons (tour lengths,
distance-table entries as consumed by `measure_path` and the search loop)
are modelled as rationals, which keeps the embedding executable; the one
place the source applies `sqrt` (`distance_matrix`) is modelled over the
reals.  C arrays become Lean lists (or total functions on indices where
only indexing matters), and the simulation loop of `main` becomes a left
fold over the list of sampled tours.
-/

/-- The largest finite single-precision float, 2^128 - 2^104; the initial
value of `min_len` in `main` (tsp.c line 118). -/
def FLT_MAX : ℚ := 340282346638528859811704183484516925440

/-- Shallow embedding of `distance_matrix` (tsp.c lines 27-42): builds the
`num_city × num_city` matrix with entry (i, j) equal to
`sqrt((x_i - x_j)^2 + (y_i - y_j)^2)`, row by row, column by column.
Coordinates are a list of (x, y) pairs, as filled in by `read_file`. -/
noncomputable def distance_matrix (coord : List (ℝ × ℝ)) (num_city : ℕ) : List (List ℝ) :=
  (List.range num_city).map fun i =>
    (List.range num_city).map fun j =>
      Real.sqrt (((coord.getD i (0, 0)).1 - (coord.getD j (0, 0)).1) ^ 2 +
        ((coord.getD i (0, 0)).2 - (coord.getD j (0, 0)).2) ^ 2)

/-- Modelled from the spec: `randperm` (declared in utils.h, its definition is
not under src/) fills the first `num_city` entries of the path with a uniformly
random permutation of `0..num_city-1`.  Its output is modelled as any list
satisfying this predicate; the distribution itself is not modelled. -/
def randperm_output (num_city : ℕ) (p : List ℕ) : Prop :=
  p.Perm (List.range num_city)

/-- Shallow embedding of `create_path` (tsp.c lines 45-54): the path is the
`randperm` output `perm` (of length `num_city`) with `path[num_city] = path[0]`
appended at the end. -/
def create_path (perm : List ℕ) : List ℕ :=
  perm ++ [perm.headD 0]

/-- Shallow embedding of `measure_path` (tsp.c lines 57-66):
`l = 0; for i in 0..num_city-1, l = l + distance[path[i]][path[i+1]]`.
The distance table is modelled as a total function on indices. -/
def measure_path (distance : ℕ → ℕ → ℚ) (num_city : ℕ) (path : List ℕ) : ℚ :=
  (List.range num_city).foldl
    (fun l i => l + distance (path.getD i 0) (path.getD (i + 1) 0)) 0

/-- Shallow embedding of one iteration of the simulation loop
(tsp.c lines 208-221): measure the sampled path; if its length is strictly
below `min_len`, set `min_len` to it and keep a copy of the path
(`array_copy`, whose definition is not under src/, is modelled from the spec:
the incumbent retains a copy of the trial's tour before that tour is freed);
otherwise the state is unchanged and the path is discarded. -/
def searchStep (distance : ℕ → ℕ → ℚ) (num_city : ℕ)
    (st : ℚ × Option (List ℕ)) (path : List ℕ) : ℚ × Option (List ℕ) :=
  let len := measure_path distance num_city path
  if len < st.1 then (len, some path) else st

/-- Shallow embedding of the whole simulation loop of `main`
(tsp.c lines 208-221) over a given list of sampled tours: `min_len` starts at
`FLT_MAX` and `min_path` starts unassigned (modelled as `none`). -/
def searchLoop (distance : ℕ → ℕ → ℚ) (num_city : ℕ)
    (trials : List (List ℕ)) : ℚ × Option (List ℕ) :=
  trials.foldl (searchStep distance num_city) (FLT_MAX, none)

/-- Models adding 1 to an integer value of the x86-64 80-bit `long double`
(64-bit significand) under the default round-to-nearest-even mode, as done by
`i++` on the loop counter of `main` (tsp.c line 208).  For `x < 2^64` the sum
`x + 1` is exactly representable; at `x = 2^64` the exact sum `2^64 + 1` lies
halfway between the representable neighbours `2^64` and `2^64 + 2` and ties to
the even significand, which is `2^64`, so the counter saturates there.  (The
counter starts at 0, so values above `2^64` are never reached.  For arbitrary
representable `x ≥ 2^64`, real rounding returns either `x` or a larger
neighbour — never anything below `x` — so this model also gives the
`x + 1 < x` comparison of the overflow guard its true value, `false`.) -/
def ldIncNat (x : ℕ) : ℕ :=
  if x < 2 ^ 64 then x + 1 else x

/-- Shallow embedding of the overflow guard of `main` (tsp.c lines 185-189):
the program exits with an error exactly when `num_iter + 1 < num_iter`
evaluates to true, the sum being computed in `long double` arithmetic. -/
def overflowGuard (num_iter : ℕ) : Bool :=
  decide (ldIncNat num_iter < num_iter)

/-- Shallow embedding of the row-counting and validation pass of `read_file`
(tsp.c lines 82-87): scan the lines in order; as soon as a line fails
`is_coordinate`, return -1; otherwise count the lines. -/
def countRows (is_coord : String → Bool) : List String → Int
  | [] => 0
  | l :: ls =>
    if is_coord l then
      let r := countRows is_coord ls
      if r = -1 then -1 else r + 1
    else -1

/-- Shallow embedding of `read_file` (tsp.c lines 69-104): an unreadable file
(`fopen` returns NULL, modelled by `none`) yields 0; otherwise the result of
scanning the lines (the count of coordinate records, or -1 on an invalid
record).  `is_coordinate` (declared in utils.h, its definition is not under
src/) is kept abstract as the parameter `is_coord`. -/
def read_file (contents : Option (List String)) (is_coord : String → Bool) : Int :=
  match contents with
  | none => 0
  | some lines => countRows is_coord lines

/-- Shallow embedding of the dispatch on `read_file`'s result in `main`
(tsp.c lines 152-165): 0 and -1 are fatal errors with the given messages
(the program exits before `distance_matrix` on line 203 and before any trial);
any other value proceeds with `num_cities` set to it. -/
def fileErrorMsg (num_cities : Int) : Option String :=
  if num_cities = 0 then some "error: no such file or directory"
  else if num_cities = -1 then some "error: incompatible data file"
  else none

lemma searchStep_fst_le (D : ℕ → ℕ → ℚ) (n : ℕ) (st : ℚ × Option (List ℕ))
    (p : List ℕ) : (searchStep D n st p).1 ≤ st.1 := by
  unfold searchStep
  dsimp only
  split
  · exact le_of_lt (by assumption)
  · exact le_refl _

lemma loop_fst_le_init (D : ℕ → ℕ → ℚ) (n : ℕ) :
    ∀ (ts : List (List ℕ)) (st : ℚ × Option (List ℕ)),
      (ts.foldl (searchStep D n) st).1 ≤ st.1 := by
  intro ts
  induction ts with
  | nil => intro st; exact le_refl _
  | cons t tl ih =>
    intro st
    calc (List.foldl (searchStep D n) (searchStep D n st t) tl).1
        ≤ (searchStep D n st t).1 := ih _
      _ ≤ st.1 := searchStep_fst_le D n st t

/-- The claim C5: for every fixed sequence of sampled tours, the best length
after running the loop on the sequence extended by one more trial is at most
the best length after running it on the original sequence: adding trials never
worsens the reported best length. -/
theorem C5_running_min_monotone (D : ℕ → ℕ → ℚ) (n : ℕ)
    (ts : List (List ℕ)) (t : List ℕ) :
    (searchLoop D n (ts ++ [t])).1 ≤ (searchLoop D n ts).1 := by
  unfold searchLoop
  rw [List.foldl_append]
  exact loop_fst_le_init D n [t] _

/-- The claim C6, incumbent part: with zero trials the loop body never runs and
the incumbent stays in its initial state: `min_len = FLT_MAX` and no tour
assigned (`min_path` is never written; in the C source it is an uninitialized
pointer at this point, which `main` nevertheless passes to `print_repo` and
frees). -/
theorem C6_zero_trials_initial_state (D : ℕ → ℕ → ℚ) (n : ℕ) :
    searchLoop D n [] = (FLT_MAX, none) := rfl

lemma ldIncNat_le (x : ℕ) (h : x ≤ 2 ^ 64) : ldIncNat x ≤ 2 ^ 64 := by
  unfold ldIncNat
  split
  · omega
  · exact h

lemma ldIncNat_iter_le (k : ℕ) : ldIncNat^[k] 0 ≤ 2 ^ 64 := by
  induction k with
  | zero => simp
  | succ m ih =>
    rw [Function.iterate_succ_apply']
    exact ldIncNat_le _ ih

/-- The claim C7 fails on the code: with the accepted trial count
`num_iter = 2^65` (the guard at tsp.c lines 185-189 does not reject it, see
`C8_overflow_guard_dead`), the `long double` loop counter of
`main` (tsp.c line 208) never reaches `num_iter`: after any number `k` of
iterations the loop condition `i < num_iter` still holds, because incrementing
saturates at `2^64`.  The loop therefore does not execute exactly `T` trials
and never terminates. -/
theorem C7_loop_never_terminates (k : ℕ) :
    ldIncNat^[k] 0 < 2 ^ 65 := by
  have h := ldIncNat_iter_le k
  have : (2 : ℕ) ^ 64 < 2 ^ 65 := by norm_num
  omega

/-- The claim C8 fails on the code: the overflow guard `num_iter + 1 < num_iter`
(tsp.c lines 185-189) is never true — rounding `x + 1` can never produce a value
below `x` — so no requested trial count is ever detected as overflowing; in
particular `2^65`, which the loop counter can never reach
(`C7_loop_never_terminates`), passes the guard. -/
theorem C8_overflow_guard_dead :
    overflowGuard (2 ^ 65) = false ∧ ∀ T : ℕ, overflowGuard T = false := by
  constructor
  · unfold overflowGuard ldIncNat
    norm_num
  · intro T
    unfold overflowGuard ldIncNat
    split <;> simp

lemma foldl_add_eq_sum (f : ℕ → ℚ) :
    ∀ (r : List ℕ) (a : ℚ), r.foldl (fun l i => l + f i) a = a + (r.map f).sum := by
  intro r
  induction r with
  | nil => intro a; simp
  | cons x xs ih =>
    intro a
    simp only [List.foldl_cons, List.map_cons, List.sum_cons, ih]
    ring

lemma map_range_sum_eq (f : ℕ → ℚ) (n : ℕ) :
    ((List.range n).map f).sum = ∑ i in Finset.range n, f i := by
  induction n with
  | zero => simp
  | succ m ih => simp [List.range_succ, Finset.sum_range_succ, ih]

lemma measure_path_eq_sum (D : ℕ → ℕ → ℚ) (n : ℕ) (p : List ℕ) :
    measure_path D n p = ∑ i in Finset.range n, D (p.getD i 0) (p.getD (i + 1) 0) := by
  unfold measure_path
  rw [foldl_add_eq_sum, map_range_sum_eq]
  ring

/-- The claim C2: for every distance table (entries non-negative, as the data
model requires of distances and as `distance_matrix` builds them) and every
tour, `measure_path` returns exactly the sum of `table[tour[i]][tour[i+1]]`
for `i` in `0..N-1`, and the result is non-negative (and, being a rational
number, finite).  In the embedding `measure_path` is a pure function of its
arguments, which it does not modify. -/
theorem C2_measure_postcondition (D : ℕ → ℕ → ℚ) (n : ℕ) (p : List ℕ)
    (hD : ∀ i j, 0 ≤ D i j) :
    measure_path D n p = ∑ i in Finset.range n, D (p.getD i 0) (p.getD (i + 1) 0) ∧
    0 ≤ measure_path D n p := by
  refine ⟨measure_path_eq_sum D n p, ?_⟩
  rw [measure_path_eq_sum]
  exact Finset.sum_nonneg fun i _ => hD _ _

/-- Witness for C2 at a concrete input: the all-ones table on 2 cities and the
tour [0, 1, 0]. -/
theorem C2_measure_postcondition_witness :
    (∀ i j : ℕ, (0 : ℚ) ≤ (fun _ _ => (1 : ℚ)) i j) ∧
    (measure_path (fun _ _ => (1 : ℚ)) 2 [0, 1, 0] =
        ∑ i in Finset.range 2,
          (fun _ _ => (1 : ℚ)) ([0, 1, 0].getD i 0) ([0, 1, 0].getD (i + 1) 0) ∧
      0 ≤ measure_path (fun _ _ => (1 : ℚ)) 2 [0, 1, 0]) :=
  ⟨fun _ _ => zero_le_one,
    C2_measure_postcondition (fun _ _ => (1 : ℚ)) 2 [0, 1, 0] fun _ _ => zero_le_one⟩

lemma getD_map_range {α} (f : ℕ → α) (d : α) (n i : ℕ) (hi : i < n) :
    ((List.range n).map f).getD i d = f i := by
  have h : i < ((List.range n).map f).length := by simpa using hi
  rw [List.getD_eq_getElem _ _ h]
  simp

lemma distance_matrix_entry (coord : List (ℝ × ℝ)) (n i j : ℕ)
    (hi : i < n) (hj : j < n) :
    ((distance_matrix coord n).getD i []).getD j 0 =
      Real.sqrt (((coord.getD i (0, 0)).1 - (coord.getD j (0, 0)).1) ^ 2 +
        ((coord.getD i (0, 0)).2 - (coord.getD j (0, 0)).2) ^ 2) := by
  unfold distance_matrix
  rw [getD_map_range _ _ _ _ hi, getD_map_range _ _ _ _ hj]

/-- The claim C3: for every list of coordinates and every city count `n ≥ 1`,
`distance_matrix` produces an `n × n`, fully populated matrix whose (i, j)
entry is `sqrt((x_i - x_j)^2 + (y_i - y_j)^2)` for every pair of indices below
`n`; the matrix is symmetric and its diagonal is zero. -/
theorem C3_distance_matrix_build (coord : List (ℝ × ℝ)) (n i j : ℕ)
    (_hn : 1 ≤ n) (hi : i < n) (hj : j < n) :
    (distance_matrix coord n).length = n ∧
    (∀ row ∈ distance_matrix coord n, row.length = n) ∧
    ((distance_matrix coord n).getD i []).getD j 0 =
      Real.sqrt (((coord.getD i (0, 0)).1 - (coord.getD j (0, 0)).1) ^ 2 +
        ((coord.getD i (0, 0)).2 - (coord.getD j (0, 0)).2) ^ 2) ∧
    ((distance_matrix coord n).getD i []).getD j 0 =
      ((distance_matrix coord n).getD j []).getD i 0 ∧
    ((distance_matrix coord n).getD i []).getD i 0 = 0 := by
  refine ⟨?_, ?_, distance_matrix_entry coord n i j hi hj, ?_, ?_⟩
  · simp [distance_matrix]
  · intro row hrow
    rw [distance_matrix] at hrow
    obtain ⟨a, _, rfl⟩ := List.mem_map.mp hrow
    simp
  · rw [distance_matrix_entry coord n i j hi hj,
      distance_matrix_entry coord n j i hj hi]
    congr 1
    ring
  · rw [distance_matrix_entry coord n i i hi hi]
    simp

/-- Witness for C3 at a concrete input: two cities at (0,0) and (1,0),
indices i = 0, j = 1. -/
theorem C3_distance_matrix_build_witness :
    1 ≤ 2 ∧ 0 < 2 ∧ 1 < 2 ∧
    ((distance_matrix [(0, 0), (1, 0)] 2).length = 2 ∧
      (∀ row ∈ distance_matrix [(0, 0), (1, 0)] 2, row.length = 2) ∧
      ((distance_matrix [(0, 0), (1, 0)] 2).getD 0 []).getD 1 0 =
        Real.sqrt ((([(0, 0), (1, 0)].getD 0 ((0 : ℝ), (0 : ℝ))).1 -
            ([(0, 0), (1, 0)].getD 1 ((0 : ℝ), (0 : ℝ))).1) ^ 2 +
          (([(0, 0), (1, 0)].getD 0 ((0 : ℝ), (0 : ℝ))).2 -
            ([(0, 0), (1, 0)].getD 1 ((0 : ℝ), (0 : ℝ))).2) ^ 2) ∧
      ((distance_matrix [(0, 0), (1, 0)] 2).getD 0 []).getD 1 0 =
        ((distance_matrix [(0, 0), (1, 0)] 2).getD 1 []).getD 0 0 ∧
      ((distance_matrix [(0, 0), (1, 0)] 2).getD 0 []).getD 0 0 = 0) :=
  ⟨by decide, by decide, by decide,
    C3_distance_matrix_build [(0, 0), (1, 0)] 2 0 1 (by decide) (by decide) (by decide)⟩

/-- The claim C4: for every `n ≥ 1` and every output of `randperm` (modelled
from the spec as an arbitrary permutation of `0..n-1`), the tour produced by
`create_path` has exactly `n + 1` entries, its first `n` entries form a
permutation of `0..n-1`, and its last entry equals its first. -/
theorem C4_tour_shape (n : ℕ) (perm : List ℕ) (hn : 1 ≤ n)
    (hp : randperm_output n perm) :
    (create_path perm).length = n + 1 ∧
    ((create_path perm).take n).Perm (List.range n) ∧
    (create_path perm).getD n 0 = (create_path perm).getD 0 0 := by
  have hl : perm.length = n := by
    simpa using hp.length_eq
  have hne : perm ≠ [] := by
    intro h
    rw [h] at hl
    simp at hl
    omega
  refine ⟨?_, ?_, ?_⟩
  · simp [create_path, hl]
  · have ht : (create_path perm).take n = perm := by
      rw [create_path, ← hl, List.take_left]
    rw [ht]
    exact hp
  · have hfst : (create_path perm).getD 0 0 = perm.headD 0 := by
      cases perm with
      | nil => exact absurd rfl hne
      | cons a l => simp [create_path]
    have hlst : (create_path perm).getD n 0 = perm.headD 0 := by
      have h : (create_path perm).getD n 0 = (create_path perm).getD perm.length 0 := by
        rw [hl]
      rw [h, create_path]
      rw [List.getD_eq_getElem _ _ (by simp)]
      rw [List.getElem_append_right (by omega)]
      simp
    rw [hfst, hlst]

/-- Witness for C4 at a concrete input: n = 3 and the permutation [2, 0, 1]. -/
theorem C4_tour_shape_witness :
    1 ≤ 3 ∧ randperm_output 3 [2, 0, 1] ∧
    ((create_path [2, 0, 1]).length = 3 + 1 ∧
      ((create_path [2, 0, 1]).take 3).Perm (List.range 3) ∧
      (create_path [2, 0, 1]).getD 3 0 = (create_path [2, 0, 1]).getD 0 0) :=
  ⟨by decide, by show ([2, 0, 1] : List ℕ).Perm (List.range 3); decide,
    C4_tour_shape 3 [2, 0, 1] (by decide)
      (by show ([2, 0, 1] : List ℕ).Perm (List.range 3); decide)⟩

lemma countRows_cases (c : String → Bool) :
    ∀ ls : List String, countRows c ls = -1 ∨ 0 ≤ countRows c ls := by
  intro ls
  induction ls with
  | nil => right; simp [countRows]
  | cons l tl ih =>
    by_cases hc : c l = true
    · by_cases h1 : countRows c tl = -1
      · left
        simp [countRows, hc, h1]
      · rcases ih with h | h
        · exact absurd h h1
        · right
          simp [countRows, hc, h1]
          omega
    · left
      simp [countRows, hc]

/-- The claim C10: a readable coordinate file with zero records makes
`read_file` return 0, which `main` reports with the same error message as a
missing file before building the distance matrix or running any trial
(`fileErrorMsg` models the guard of tsp.c lines 152-165, which exits on 0 or
-1 before `distance_matrix` is called on line 203); consequently, whenever the
guard lets the run proceed, the city count is at least 1, so the core is never
invoked with zero cities. -/
theorem C10_empty_file_rejected (is_coord : String → Bool) :
    read_file (some []) is_coord = 0 ∧
    fileErrorMsg (read_file (some []) is_coord) = some "error: no such file or directory" ∧
    fileErrorMsg (read_file none is_coord) = some "error: no such file or directory" ∧
    ∀ contents : Option (List String),
      1 ≤ read_file contents is_coord ∨
        (fileErrorMsg (read_file contents is_coord)).isSome = true := by
  refine ⟨rfl, rfl, rfl, ?_⟩
  intro contents
  match contents with
  | none => right; rfl
  | some lines =>
    rcases countRows_cases is_coord lines with h | h
    · right
      simp [read_file, fileErrorMsg, h]
    · by_cases h0 : countRows is_coord lines = 0
      · right
        simp [read_file, fileErrorMsg, h0]
      · left
        have : read_file (some lines) is_coord = countRows is_coord lines := rfl
        omega

lemma searchStep_fst_le_len (D : ℕ → ℕ → ℚ) (n : ℕ) (st : ℚ × Option (List ℕ))
    (p : List ℕ) : (searchStep D n st p).1 ≤ measure_path D n p := by
  unfold searchStep
  dsimp only
  split
  · exact le_refl _
  · exact le_of_not_lt (by assumption)

lemma loop_fst_le_of_mem (D : ℕ → ℕ → ℚ) (n : ℕ) :
    ∀ (ts : List (List ℕ)) (st : ℚ × Option (List ℕ)) (t : List ℕ), t ∈ ts →
      (ts.foldl (searchStep D n) st).1 ≤ measure_path D n t := by
  intro ts
  induction ts with
  | nil => intro st t ht; exact absurd ht (List.not_mem_nil t)
  | cons u tl ih =>
    intro st t ht
    rcases List.mem_cons.mp ht with h | h
    · subst h
      calc (List.foldl (searchStep D n) (searchStep D n st t) tl).1
          ≤ (searchStep D n st t).1 := loop_fst_le_init D n tl _
        _ ≤ measure_path D n t := searchStep_fst_le_len D n st t
    · exact ih (searchStep D n st u) t h

lemma searchStep_of_lt (D : ℕ → ℕ → ℚ) (n : ℕ) (st : ℚ × Option (List ℕ))
    (p : List ℕ) (h : measure_path D n p < st.1) :
    searchStep D n st p = (measure_path D n p, some p) := by
  unfold searchStep
  dsimp only
  rw [if_pos h]

lemma searchStep_of_not_lt (D : ℕ → ℕ → ℚ) (n : ℕ) (st : ℚ × Option (List ℕ))
    (p : List ℕ) (h : ¬ measure_path D n p < st.1) :
    searchStep D n st p = st := by
  unfold searchStep
  dsimp only
  rw [if_neg h]

lemma loop_no_improve (D : ℕ → ℕ → ℚ) (n : ℕ) :
    ∀ (ts : List (List ℕ)) (st : ℚ × Option (List ℕ)),
      (∀ t ∈ ts, st.1 ≤ measure_path D n t) →
      ts.foldl (searchStep D n) st = st := by
  intro ts
  induction ts with
  | nil => intro st _; rfl
  | cons t tl ih =>
    intro st h
    rw [List.foldl_cons,
      searchStep_of_not_lt D n st t (not_lt.mpr (h t (List.mem_cons_self t tl)))]
    exact ih st fun u hu => h u (List.mem_cons_of_mem t hu)

lemma loop_first_found (D : ℕ → ℕ → ℚ) (n : ℕ) :
    ∀ (ts : List (List ℕ)) (st : ℚ × Option (List ℕ)),
      (∃ t ∈ ts, measure_path D n t < st.1) →
      ∃ i : ℕ, ∃ hi : i < ts.length,
        (ts.foldl (searchStep D n) st).2 = some (ts.get ⟨i, hi⟩) ∧
        measure_path D n (ts.get ⟨i, hi⟩) = (ts.foldl (searchStep D n) st).1 ∧
        ∀ j : ℕ, ∀ hj : j < ts.length, j < i →
          (ts.foldl (searchStep D n) st).1 < measure_path D n (ts.get ⟨j, hj⟩) := by
  intro ts
  induction ts with
  | nil => intro st h; simp at h
  | cons t tl ih =>
    intro st h
    by_cases hlt : measure_path D n t < st.1
    · have hstep := searchStep_of_lt D n st t hlt
      by_cases h2 : ∃ u ∈ tl, measure_path D n u < measure_path D n t
      · obtain ⟨i, hi, ha, hb, hc⟩ :=
          ih (searchStep D n st t) (by rw [hstep]; exact h2)
        refine ⟨i + 1, Nat.succ_lt_succ hi, ?_, ?_, ?_⟩
        · rw [List.foldl_cons]
          exact ha
        · rw [List.foldl_cons]
          exact hb
        · intro j hj hji
          match j with
          | 0 =>
            obtain ⟨u, hu, hult⟩ := h2
            have h1 : (List.foldl (searchStep D n) (searchStep D n st t) tl).1 ≤
                measure_path D n u := loop_fst_le_of_mem D n tl _ u hu
            rw [List.foldl_cons]
            exact lt_of_le_of_lt h1 hult
          | j + 1 =>
            rw [List.foldl_cons]
            exact hc j (Nat.lt_of_succ_lt_succ hj) (Nat.lt_of_succ_lt_succ hji)
      · push_neg at h2
        have hr : List.foldl (searchStep D n) (searchStep D n st t) tl =
            (measure_path D n t, some t) := by
          rw [hstep]
          exact loop_no_improve D n tl _ fun u hu => h2 u hu
        refine ⟨0, Nat.succ_pos _, ?_, ?_, ?_⟩
        · rw [List.foldl_cons, hr]
          rfl
        · rw [List.foldl_cons, hr]
          rfl
        · intro j hj hji
          exact absurd hji (Nat.not_lt_zero j)

    · have hstep := searchStep_of_not_lt D n st t hlt
      obtain ⟨u, hu, hult⟩ := h
      rcases List.mem_cons.mp hu with he | he
      · subst he
        exact absurd hult hlt
      · obtain ⟨i, hi, ha, hb, hc⟩ := ih st ⟨u, he, hult⟩
        refine ⟨i + 1, Nat.succ_lt_succ hi, ?_, ?_, ?_⟩
        · rw [List.foldl_cons, hstep]
          exact ha
        · rw [List.foldl_cons, hstep]
          exact hb
        · intro j hj hji
          match j with
          | 0 =>
            have h1 : (List.foldl (searchStep D n) st tl).1 ≤
                measure_path D n u := loop_fst_le_of_mem D n tl st u he
            rw [List.foldl_cons, hstep]
            exact lt_of_le_of_lt h1 (lt_of_lt_of_le hult (not_lt.mp hlt))
          | j + 1 =>
            rw [List.foldl_cons, hstep]
            exact hc j (Nat.lt_of_succ_lt_succ hj) (Nat.lt_of_succ_lt_succ hji)

/-- The claim C1: whenever some trial measures below the initial `FLT_MAX`,
the final incumbent holds (a copy of) the tour of some trial `i` whose length
equals the final best length; every trial before `i` measured strictly above
that length (so the incumbent was replaced exactly on strictly smaller lengths,
and among equal-length tours the earliest found is kept), and no trial at all
measured below it. -/
theorem C1_incumbent_first_found (D : ℕ → ℕ → ℚ) (n : ℕ) (ts : List (List ℕ))
    (h : ∃ t ∈ ts, measure_path D n t < FLT_MAX) :
    ∃ i : ℕ, ∃ hi : i < ts.length,
      (searchLoop D n ts).2 = some (ts.get ⟨i, hi⟩) ∧
      measure_path D n (ts.get ⟨i, hi⟩) = (searchLoop D n ts).1 ∧
      (∀ j : ℕ, ∀ hj : j < ts.length, j < i →
        (searchLoop D n ts).1 < measure_path D n (ts.get ⟨j, hj⟩)) ∧
      ∀ t ∈ ts, (searchLoop D n ts).1 ≤ measure_path D n t := by
  obtain ⟨i, hi, ha, hb, hc⟩ := loop_first_found D n ts (FLT_MAX, none) h
  exact ⟨i, hi, ha, hb, hc, fun t ht => loop_fst_le_of_mem D n ts _ t ht⟩

/-- Witness for C1 at a concrete input: the all-ones table on 2 cities and the
single trial [0, 1, 0], whose length 2 is below FLT_MAX. -/
theorem C1_incumbent_first_found_witness :
    (∃ t ∈ [[0, 1, 0]], measure_path (fun _ _ => (1 : ℚ)) 2 t < FLT_MAX) ∧
    (∃ i : ℕ, ∃ hi : i < ([[0, 1, 0]] : List (List ℕ)).length,
      (searchLoop (fun _ _ => (1 : ℚ)) 2 [[0, 1, 0]]).2 =
        some (([[0, 1, 0]] : List (List ℕ)).get ⟨i, hi⟩) ∧
      measure_path (fun _ _ => (1 : ℚ)) 2 (([[0, 1, 0]] : List (List ℕ)).get ⟨i, hi⟩) =
        (searchLoop (fun _ _ => (1 : ℚ)) 2 [[0, 1, 0]]).1 ∧
      (∀ j : ℕ, ∀ hj : j < ([[0, 1, 0]] : List (List ℕ)).length, j < i →
        (searchLoop (fun _ _ => (1 : ℚ)) 2 [[0, 1, 0]]).1 <
          measure_path (fun _ _ => (1 : ℚ)) 2 (([[0, 1, 0]] : List (List ℕ)).get ⟨j, hj⟩)) ∧
      ∀ t ∈ [[0, 1, 0]],
        (searchLoop (fun _ _ => (1 : ℚ)) 2 [[0, 1, 0]]).1 ≤
          measure_path (fun _ _ => (1 : ℚ)) 2 t) :=
  ⟨⟨[0, 1, 0], by simp, by norm_num [measure_path, FLT_MAX, List.range_succ]⟩,
    C1_incumbent_first_found (fun _ _ => (1 : ℚ)) 2 [[0, 1, 0]]
      ⟨[0, 1, 0], by simp, by norm_num [measure_path, FLT_MAX, List.range_succ]⟩⟩

lemma measure_path_eq_map_sum (D : ℕ → ℕ → ℚ) (n : ℕ) (p : List ℕ) :
    measure_path D n p =
      ((List.range n).map fun i => D (p.getD i 0) (p.getD (i + 1) 0)).sum := by
  unfold measure_path
  rw [foldl_add_eq_sum, zero_add]

lemma measure_closed_eq (D : ℕ → ℕ → ℚ) (q : List ℕ) :
    measure_path D q.length (create_path q) =
      (List.zipWith D q (q.rotate 1)).sum := by
  rw [measure_path_eq_map_sum]
  congr 1
  apply List.ext_get
  · simp [create_path, List.length_zipWith]
  · intro i h1 h2
    have hi : i < q.length := by simpa using h1
    have hq : 0 < q.length := by omega
    rw [List.get_eq_getElem, List.getElem_map, List.getElem_range]
    rw [List.get_eq_getElem, List.getElem_zipWith]
    have e1 : (create_path q).getD i 0 = q[i] := by
      have hlen : i < (create_path q).length := by simp [create_path]; omega
      rw [List.getD_eq_getElem _ _ hlen]
      simp only [create_path]
      exact List.getElem_append_left hi
    have e2 : (create_path q).getD (i + 1) 0 =
        q.get ⟨(i + 1) % q.length, Nat.mod_lt _ hq⟩ := by
      have hlen : i + 1 < (create_path q).length := by simp [create_path]; omega
      rw [List.getD_eq_getElem _ _ hlen]
      simp only [create_path]
      by_cases hlt : i + 1 < q.length
      · rw [List.getElem_append_left hlt]
        congr 1
        exact (Nat.mod_eq_of_lt hlt).symm
      · have he : i + 1 = q.length := by omega
        rw [List.getElem_append_right (by omega)]
        simp [he]
        rcases q with _ | ⟨a, l⟩
        · simp at hq
        · simp
    rw [e1, e2, List.get_eq_getElem, List.getElem_rotate]

lemma zipWith_symm (D : ℕ → ℕ → ℚ) (hsym : ∀ i j, D i j = D j i) :
    ∀ a b : List ℕ, List.zipWith D a b = List.zipWith D b a := by
  intro a
  induction a with
  | nil => intro b; cases b <;> rfl
  | cons x xs ih =>
    intro b
    cases b with
    | nil => rfl
    | cons y ys => simp [hsym x y, ih ys]

lemma reverse_zipWith (D : ℕ → ℕ → ℚ) :
    ∀ (a b : List ℕ), a.length = b.length →
      (List.zipWith D a b).reverse = List.zipWith D a.reverse b.reverse := by
  intro a
  induction a with
  | nil => intro b _; simp
  | cons x xs ih =>
    intro b hb
    cases b with
    | nil => simp at hb
    | cons y ys =>
      have hxy : xs.length = ys.length := by simpa using hb
      simp only [List.zipWith_cons_cons, List.reverse_cons]
      rw [List.zipWith_append _ _ _ _ _ (by simp [hxy]), ih ys hxy]
      simp

lemma cyc_rotate_eq (D : ℕ → ℕ → ℚ) (q : List ℕ) (k : ℕ) :
    List.zipWith D (q.rotate k) ((q.rotate k).rotate 1) =
      (List.zipWith D q (q.rotate 1)).rotate k := by
  rw [List.rotate_rotate, show k + 1 = 1 + k from Nat.add_comm k 1, ← List.rotate_rotate]
  exact (List.zipWith_rotate_distrib D q (q.rotate 1) k (by rw [List.length_rotate])).symm

lemma cyc_reverse_sum_eq (D : ℕ → ℕ → ℚ) (hsym : ∀ i j, D i j = D j i)
    (q : List ℕ) (hN : 2 ≤ q.length) :
    (List.zipWith D q.reverse (q.reverse.rotate 1)).sum =
      (List.zipWith D q (q.rotate 1)).sum := by
  have hm : (1 : ℕ) % q.length = 1 := Nat.mod_eq_of_lt (by omega)
  have h1 : q.reverse.rotate 1 = (q.rotate (q.length - 1)).reverse := by
    rw [List.rotate_reverse, hm]
  rw [h1, ← reverse_zipWith D q (q.rotate (q.length - 1)) (by rw [List.length_rotate])]
  rw [List.sum_reverse]
  rw [← (List.rotate_perm (List.zipWith D q (q.rotate (q.length - 1))) 1).sum_eq]
  rw [List.zipWith_rotate_distrib D q (q.rotate (q.length - 1)) 1 (by rw [List.length_rotate])]
  rw [List.rotate_rotate]
  have h3 : q.length - 1 + 1 = q.length := by omega
  rw [h3, List.rotate_length]
  rw [zipWith_symm D hsym]

/-- The claim C9: for every symmetric distance table (as `distance_matrix`
builds, see `C3_distance_matrix_build`) and every open tour `q` closed up by
`create_path` and measured by `measure_path` over `q.length` cities, rotating
the cyclic order by any amount `k` preserves the measured total length, and
reversing the visiting order also preserves it. -/
theorem C9_rotation_reversal_invariance (D : ℕ → ℕ → ℚ)
    (hsym : ∀ i j, D i j = D j i) (q : List ℕ) (k : ℕ) :
    measure_path D q.length (create_path (q.rotate k)) =
      measure_path D q.length (create_path q) ∧
    measure_path D q.length (create_path q.reverse) =
      measure_path D q.length (create_path q) := by
  constructor
  · have h1 := measure_closed_eq D (q.rotate k)
    rw [List.length_rotate] at h1
    rw [h1, cyc_rotate_eq, (List.rotate_perm _ _).sum_eq, ← measure_closed_eq]
  · match q with
    | [] => rfl
    | [a] => rfl
    | a :: b :: r =>
      have h1 := measure_closed_eq D (a :: b :: r).reverse
      rw [List.length_reverse] at h1
      rw [h1, cyc_reverse_sum_eq D hsym (a :: b :: r) (by simp), ← measure_closed_eq]

/-- Witness for C9 at a concrete input: the all-ones (symmetric) table, the
open tour [0, 1, 2] and rotation amount 1. -/
theorem C9_rotation_reversal_invariance_witness :
    (∀ i j : ℕ, (fun _ _ => (1 : ℚ)) i j = (fun _ _ => (1 : ℚ)) j i) ∧
    (measure_path (fun _ _ => (1 : ℚ)) ([0, 1, 2] : List ℕ).length
        (create_path (([0, 1, 2] : List ℕ).rotate 1)) =
      measure_path (fun _ _ => (1 : ℚ)) ([0, 1, 2] : List ℕ).length
        (create_path [0, 1, 2]) ∧
    measure_path (fun _ _ => (1 : ℚ)) ([0, 1, 2] : List ℕ).length
        (create_path (([0, 1, 2] : List ℕ).reverse)) =
      measure_path (fun _ _ => (1 : ℚ)) ([0, 1, 2] : List ℕ).length
        (create_path [0, 1, 2])) :=
  ⟨fun _ _ => rfl,
    C9_rotation_reversal_invariance (fun _ _ => (1 : ℚ)) (fun _ _ => rfl) [0, 1, 2] 1⟩
